import Mathlib

/-!
Verification development for the IR burst normalization / framing /
pulse-building core of the escaperoomservers repository
(file `IR Server/data/ir_server.py`).

Python integers are modelled as `Int`, python lists as `List`, and a
python function that can `raise` is modelled as returning
`Except String _` (the string being the exception message).
-/

namespace IRServer

/-- `true` exactly on the `error` constructor: models "the python call raised". -/
def isErr {ε α : Type} : Except ε α → Bool
  | .error _ => true
  | .ok _ => false

/-- Model of the list comprehension
`[abs(v) if i % 2 == 0 else -abs(v) for i, v in enumerate(arr)]`
inside `normalize_burst_us` (ir_server.py line 119-122): even 0-based
index keeps `abs`, odd index gets `-abs`.  Consuming two elements per
step preserves index parity, so this recursion computes the same list. -/
def resign : List Int → List Int
  | a :: b :: rest => |a| :: -|b| :: resign rest
  | [a] => [|a|]
  | [] => []

/-- Model of `if len(out) % 2 == 1: out = out[:-1]` (ir_server.py
lines 124-125 and 154-155). -/
def dropLastIfOdd (l : List Int) : List Int :=
  if l.length % 2 = 1 then l.dropLast else l

/-- Model of `normalize_burst_us` (ir_server.py lines 102-128):
drop zeros, raise on empty, re-sign by index parity, drop a trailing
unpaired entry, raise if nothing remains.  `int(x)` on an `Int` input
never raises, so the `try/except: continue` is the identity here. -/
def normalize_burst_us (seq : List Int) : Except String (List Int) :=
  let arr := seq.filter (fun x => x != 0)
  if arr.isEmpty then .error "empty IR burst"
  else
    let out := dropLastIfOdd (resign arr)
    if out.isEmpty then .error "invalid IR burst after normalization"
    else .ok out

/-- Model of the `for on in it` pairing loop of `extract_first_frame_us`
(ir_server.py lines 146-153): take pairs `(on, off)`, append both, stop
after the first `off` with `abs(off) >= gap_us`; a trailing unpaired
`on` is dropped (`off is None` breaks before appending). -/
def extractLoop : List Int → Int → List Int
  | a :: b :: rest, gap =>
      if gap ≤ |b| then [a, b] else a :: b :: extractLoop rest gap
  | _, _ => []

/-- Model of `extract_first_frame_us` (ir_server.py lines 139-156):
normalize, walk mark/space pairs until the first big gap, return the
accumulated prefix, or the whole normalized burst when the prefix is
empty. -/
def extract_first_frame_us (durations_us : List Int) (gap_us : Int) :
    Except String (List Int) :=
  match normalize_burst_us durations_us with
  | .error e => .error e
  | .ok arr =>
      let out := dropLastIfOdd (extractLoop arr gap_us)
      .ok (if out.isEmpty then arr else out)

/-- Position-signedness: every even-indexed entry is positive and every
odd-indexed entry is negative. -/
def PosNeg (l : List Int) : Prop :=
  (∀ i, i < l.length → i % 2 = 0 → 0 < l.getD i 0) ∧
  (∀ i, i < l.length → i % 2 = 1 → l.getD i 0 < 0)

/-- A normalized Burst as the spec describes it: non-empty, even length,
position-signed (which also forces every entry nonzero). -/
def IsNormalized (b : List Int) : Prop :=
  b ≠ [] ∧ b.length % 2 = 0 ∧ PosNeg b

instance : DecidablePred PosNeg := fun l => by
  unfold PosNeg; infer_instance

instance (b : List Int) : Decidable (IsNormalized b) := by
  unfold IsNormalized; infer_instance

theorem posneg_nil : PosNeg [] := by
  constructor <;> intro i hi <;> simp at hi

theorem posneg_single {a : Int} : PosNeg [a] ↔ 0 < a := by
  constructor
  · intro h
    have := h.1 0 (by simp) rfl
    simpa using this
  · intro ha
    constructor <;> intro i hi hp
    · simp only [List.length_singleton] at hi
      obtain rfl : i = 0 := by omega
      simpa using ha
    · simp only [List.length_singleton] at hi
      obtain rfl : i = 0 := by omega
      simp at hp

theorem posneg_cons2 {a b : Int} {l : List Int} :
    PosNeg (a :: b :: l) ↔ 0 < a ∧ b < 0 ∧ PosNeg l := by
  constructor
  · intro h
    refine ⟨by simpa using h.1 0 (by simp) rfl, by simpa using h.2 1 (by simp) rfl, ?_, ?_⟩
    · intro i hi hp
      have := h.1 (i + 2) (by simp; omega) (by omega)
      simpa [List.getD_cons_succ] using this
    · intro i hi hp
      have := h.2 (i + 2) (by simp; omega) (by omega)
      simpa [List.getD_cons_succ] using this
  · rintro ⟨ha, hb, hl⟩
    constructor <;> intro i hi hp
    · match i with
      | 0 => simpa using ha
      | 1 => omega
      | i + 2 =>
          have hi' : i < l.length := by simp at hi; omega
          have := hl.1 i hi' (by omega)
          simpa [List.getD_cons_succ] using this
    · match i with
      | 0 => omega
      | 1 => simpa using hb
      | i + 2 =>
          have hi' : i < l.length := by simp at hi; omega
          have := hl.2 i hi' (by omega)
          simpa [List.getD_cons_succ] using this

theorem posneg_mem_ne_zero {l : List Int} (h : PosNeg l) :
    ∀ x ∈ l, x ≠ 0 := by
  induction l using resign.induct with
  | case1 a b rest ih =>
      rw [posneg_cons2] at h
      intro x hx
      rcases hx with _ | ⟨_, hx⟩
      · omega
      · rcases hx with _ | ⟨_, hx⟩
        · omega
        · exact ih h.2.2 x (by simpa using hx)
  | case2 a =>
      intro x hx
      rw [posneg_single] at h
      simp at hx
      omega
  | case3 =>
      intro x hx
      simp at hx

theorem resign_posneg {l : List Int} (h : ∀ x ∈ l, x ≠ 0) :
    PosNeg (resign l) := by
  induction l using resign.induct with
  | case1 a b rest ih =>
      have ha : a ≠ 0 := h a (by simp)
      have hb : b ≠ 0 := h b (by simp)
      rw [resign, posneg_cons2]
      refine ⟨by positivity, by simp [abs_pos.mpr hb], ?_⟩
      exact ih (fun x hx => h x (by simp [hx]))
  | case2 a =>
      have ha : a ≠ 0 := h a (by simp)
      rw [resign, posneg_single]
      positivity
  | case3 => exact posneg_nil

theorem resign_length (l : List Int) : (resign l).length = l.length := by
  induction l using resign.induct with
  | case1 a b rest ih => simp [resign, ih]
  | case2 a => simp [resign]
  | case3 => simp [resign]

theorem resign_of_posneg {l : List Int} (h : PosNeg l) : resign l = l := by
  induction l using resign.induct with
  | case1 a b rest ih =>
      rw [posneg_cons2] at h
      rw [resign, abs_of_pos h.1, abs_of_neg h.2.1, neg_neg, ih h.2.2]
  | case2 a =>
      rw [posneg_single] at h
      rw [resign, abs_of_pos h]
  | case3 => rfl

theorem posneg_take {l : List Int} (h : PosNeg l) (n : Nat) :
    PosNeg (l.take n) := by
  induction l using resign.induct generalizing n with
  | case1 a b rest ih =>
      rw [posneg_cons2] at h
      match n with
      | 0 => exact posneg_nil
      | 1 => simpa [posneg_single] using h.1
      | n + 2 =>
          rw [List.take_succ_cons, List.take_succ_cons, posneg_cons2]
          exact ⟨h.1, h.2.1, ih h.2.2 n⟩
  | case2 a =>
      match n with
      | 0 => exact posneg_nil
      | n + 1 => simpa [List.take_succ_cons] using h
  | case3 => simpa using posneg_nil

theorem dropLastIfOdd_even_length (l : List Int) :
    (dropLastIfOdd l).length % 2 = 0 := by
  unfold dropLastIfOdd
  split
  · rename_i h
    rw [List.length_dropLast]
    omega
  · rename_i h
    omega

theorem dropLastIfOdd_of_even {l : List Int} (h : l.length % 2 = 0) :
    dropLastIfOdd l = l := by
  unfold dropLastIfOdd
  rw [if_neg (by omega)]

theorem posneg_dropLastIfOdd {l : List Int} (h : PosNeg l) :
    PosNeg (dropLastIfOdd l) := by
  unfold dropLastIfOdd
  split
  · rw [List.dropLast_eq_take]
    exact posneg_take h _
  · exact h

/-- Soundness of normalization: a successful result is a normalized
Burst in the structural sense. -/
theorem normalize_sound {s b : List Int}
    (h : normalize_burst_us s = .ok b) : IsNormalized b := by
  unfold normalize_burst_us at h
  set arr := s.filter (fun x => x != 0) with harr
  by_cases h1 : arr.isEmpty
  · simp [h1] at h
  · simp only [h1, Bool.false_eq_true, if_false] at h
    by_cases h2 : (dropLastIfOdd (resign arr)).isEmpty
    · simp [h2] at h
    · simp only [h2, Bool.false_eq_true, if_false, Except.ok.injEq] at h
      subst h
      have hnz : ∀ x ∈ arr, x ≠ 0 := by
        intro x hx
        have := List.of_mem_filter hx
        simpa using this
      have hpn : PosNeg (dropLastIfOdd (resign arr)) :=
        posneg_dropLastIfOdd (resign_posneg hnz)
      refine ⟨by simpa [List.isEmpty_iff] using h2, ?_, hpn⟩
      exact dropLastIfOdd_even_length _

/-- A structurally normalized Burst is a fixed point of
`normalize_burst_us`. -/
theorem normalize_fixed {b : List Int} (h : IsNormalized b) :
    normalize_burst_us b = .ok b := by
  obtain ⟨hne, hev, hpn⟩ := h
  have hfilter : b.filter (fun x => x != 0) = b := by
    rw [List.filter_eq_self]
    intro x hx
    simpa using posneg_mem_ne_zero hpn x hx
  unfold normalize_burst_us
  rw [hfilter]
  have hbe : b.isEmpty = false := by simpa [List.isEmpty_iff] using hne
  simp only [hbe, Bool.false_eq_true, if_false]
  rw [resign_of_posneg hpn, dropLastIfOdd_of_even hev]
  simp [hbe]

theorem dropLastIfOdd_eq_nil_iff (l : List Int) :
    dropLastIfOdd l = [] ↔ l.length ≤ 1 := by
  unfold dropLastIfOdd
  split
  · rename_i h
    rw [← List.length_eq_zero, List.length_dropLast]
    omega
  · rename_i h
    rw [← List.length_eq_zero]
    omega

/-- `normalize_burst_us` raises exactly when fewer than two nonzero
entries are present. -/
theorem normalize_isErr_iff (s : List Int) :
    isErr (normalize_burst_us s) = true ↔
      (s.filter (fun x => x != 0)).length ≤ 1 := by
  unfold normalize_burst_us
  by_cases h1 : (s.filter (fun x => x != 0)).isEmpty
  · simp only [h1, if_true]
    rw [List.isEmpty_iff] at h1
    simp [isErr, h1]
  · simp only [h1, Bool.false_eq_true, if_false]
    by_cases h2 : (dropLastIfOdd (resign (s.filter (fun x => x != 0)))).isEmpty
    · simp only [h2, if_true]
      rw [List.isEmpty_iff, dropLastIfOdd_eq_nil_iff, resign_length] at h2
      simp [isErr, h2]
    · simp only [h2, Bool.false_eq_true, if_false]
      rw [List.isEmpty_iff, dropLastIfOdd_eq_nil_iff, resign_length] at h2
      rw [List.isEmpty_iff, ← List.length_eq_zero] at h1
      simp [isErr]
      omega

/-- C1 (counterexample to the claim as stated): `[5]` is a non-empty
integer sequence on which `normalize_burst_us` raises instead of
producing a Burst. -/
theorem c1_normalize_not_total_on_nonempty :
    ([5] : List Int) ≠ [] ∧
      normalize_burst_us [5] = .error "invalid IR burst after normalization" := by
  constructor
  · decide
  · rfl

/-- C1 (amended): whenever `normalize_burst_us` succeeds, its output is
zero-free, has every even-indexed (0-based) entry positive, every
odd-indexed entry negative, and has even length. -/
theorem c1_normalize_output_shape (s b : List Int)
    (h : normalize_burst_us s = .ok b) :
    (∀ x ∈ b, x ≠ 0) ∧
      (∀ i, i < b.length → i % 2 = 0 → 0 < b.getD i 0) ∧
      (∀ i, i < b.length → i % 2 = 1 → b.getD i 0 < 0) ∧
      b.length % 2 = 0 := by
  obtain ⟨hne, hev, hpn⟩ := normalize_sound h
  exact ⟨posneg_mem_ne_zero hpn, hpn.1, hpn.2, hev⟩

/-- C1 witness: the amended theorem applied to the concrete signed
input `[900, -450, 0]`, whose normalization is `[900, -450]`. -/
theorem c1_witness :
    (∀ x ∈ ([900, -450] : List Int), x ≠ 0) ∧
      (∀ i, i < ([900, -450] : List Int).length → i % 2 = 0 →
        0 < ([900, -450] : List Int).getD i 0) ∧
      (∀ i, i < ([900, -450] : List Int).length → i % 2 = 1 →
        ([900, -450] : List Int).getD i 0 < 0) ∧
      ([900, -450] : List Int).length % 2 = 0 :=
  c1_normalize_output_shape [900, -450, 0] [900, -450] (by rfl)

/-- C4: normalization is idempotent — whenever `normalize_burst_us s`
succeeds with output `b`, normalizing `b` again returns `b` unchanged. -/
theorem c4_normalize_idempotent (s b : List Int)
    (h : normalize_burst_us s = .ok b) :
    normalize_burst_us b = .ok b :=
  normalize_fixed (normalize_sound h)

/-- C4 witness: idempotence applied to the concrete unsigned input
`[900, 450, 0]`, whose normalization is `[900, -450]`. -/
theorem c4_witness :
    normalize_burst_us [900, -450] = .ok [900, -450] :=
  c4_normalize_idempotent [900, 450, 0] [900, -450] (by rfl)

/-- C5: `normalize_burst_us` raises if and only if the input is empty
before normalization or becomes empty after dropping the zero entries
and the trailing unpaired entry; on every other input it succeeds. -/
theorem c5_normalize_error_iff (s : List Int) :
    isErr (normalize_burst_us s) = true ↔
      (s = [] ∨ dropLastIfOdd (s.filter (fun x => x != 0)) = []) := by
  rw [normalize_isErr_iff, dropLastIfOdd_eq_nil_iff]
  constructor
  · intro h
    exact Or.inr h
  · rintro (rfl | h)
    · simp
    · exact h

/-- Spec-side notion (from the spec words): no space segment (odd index)
strictly before position `k` reaches the gap threshold. -/
def NoBigGapBefore (b : List Int) (gap : Int) (k : Nat) : Prop :=
  ∀ j, j < k → j % 2 = 1 → |b.getD j 0| < gap

/-- Spec-side characterization of the frame extractor (from the spec
words): `r` is the prefix of `b` up to and including the first space
segment whose magnitude reaches `gap`, or the entire `b` when no space
segment reaches `gap`. -/
def FirstFrameOf (b : List Int) (gap : Int) (r : List Int) : Prop :=
  (∃ k, k < b.length ∧ k % 2 = 1 ∧ gap ≤ |b.getD k 0| ∧
      NoBigGapBefore b gap k ∧ r = b.take (k + 1)) ∨
    (NoBigGapBefore b gap b.length ∧ r = b)

instance (b : List Int) (gap : Int) (k : Nat) :
    Decidable (NoBigGapBefore b gap k) := by
  unfold NoBigGapBefore; infer_instance

instance (b : List Int) (gap : Int) (r : List Int) :
    Decidable (FirstFrameOf b gap r) := by
  unfold FirstFrameOf; infer_instance

theorem extractLoop_length_even (l : List Int) (gap : Int) :
    (extractLoop l gap).length % 2 = 0 := by
  induction l using resign.induct with
  | case1 a b rest ih =>
      rw [extractLoop]
      split
      · simp
      · simp only [List.length_cons]
        omega
  | case2 a => rfl
  | case3 => rfl

theorem extractLoop_ne_nil (a b : Int) (rest : List Int) (gap : Int) :
    extractLoop (a :: b :: rest) gap ≠ [] := by
  rw [extractLoop]
  split <;> simp

theorem extractLoop_firstFrame (b : List Int) (gap : Int)
    (h : b.length % 2 = 0) : FirstFrameOf b gap (extractLoop b gap) := by
  induction b using resign.induct with
  | case1 a c rest ih =>
      rw [extractLoop]
      by_cases hg : gap ≤ |c|
      · rw [if_pos hg]
        refine Or.inl ⟨1, by simp, rfl, by simpa using hg, ?_, by simp⟩
        intro j hj hp
        omega
      · rw [if_neg hg]
        have hrest : rest.length % 2 = 0 := by simp at h; omega
        rcases ih hrest with ⟨k, hk, hp, hbig, hnb, hr⟩ | ⟨hnb, hr⟩
        · refine Or.inl ⟨k + 2, by simp; omega, by omega,
            by simpa [List.getD_cons_succ] using hbig, ?_, ?_⟩
          · intro j hj hpj
            match j with
            | 0 => omega
            | 1 =>
                simp only [List.getD_cons_succ, List.getD_cons_zero]
                omega
            | j + 2 =>
                simp only [List.getD_cons_succ]
                exact hnb j (by omega) (by omega)
          · rw [List.take_succ_cons, List.take_succ_cons, ← hr]
        · refine Or.inr ⟨?_, by rw [hr]⟩
          intro j hj hpj
          match j with
          | 0 => omega
          | 1 =>
              simp only [List.getD_cons_succ, List.getD_cons_zero]
              omega
          | j + 2 =>
              simp only [List.getD_cons_succ]
              refine hnb j ?_ (by omega)
              simp at hj
              omega
  | case2 a => simp at h
  | case3 =>
      exact Or.inr ⟨fun j hj _ => by simp at hj, rfl⟩

/-- C2: on a normalized Burst, `extract_first_frame_us` succeeds and
returns exactly the prefix up to and including the first space segment
whose magnitude reaches the gap threshold — the entire burst when no
space segment does. -/
theorem c2_extract_first_frame (b : List Int) (gap : Int)
    (hb : IsNormalized b) :
    extract_first_frame_us b gap = .ok (extractLoop b gap) ∧
      FirstFrameOf b gap (extractLoop b gap) := by
  have hfix := normalize_fixed hb
  obtain ⟨hne, hev, hpn⟩ := hb
  obtain ⟨a, rest⟩ := List.exists_cons_of_ne_nil hne
  obtain ⟨l, hl⟩ := rest
  have hshape : ∃ c t, b = a :: c :: t := by
    match l, hl with
    | [], hl => rw [hl] at hev; simp at hev
    | c :: t, hl => exact ⟨c, t, hl⟩
  obtain ⟨c, t, rfl⟩ := hshape
  constructor
  · unfold extract_first_frame_us
    rw [hfix]
    dsimp only
    rw [dropLastIfOdd_of_even (extractLoop_length_even _ _)]
    have : (extractLoop (a :: c :: t) gap).isEmpty = false := by
      simpa [List.isEmpty_iff] using extractLoop_ne_nil a c t gap
    simp [this]
  · exact extractLoop_firstFrame _ gap hev

/-- C2 witness: the spec example — gap 7000 on
`[1000, -500, 1000, -8000, 1000, -500]` yields
`[1000, -500, 1000, -8000]`. -/
theorem c2_witness :
    extract_first_frame_us [1000, -500, 1000, -8000, 1000, -500] 7000 =
        .ok [1000, -500, 1000, -8000] ∧
      FirstFrameOf [1000, -500, 1000, -8000, 1000, -500] 7000
        [1000, -500, 1000, -8000] := by
  have h := c2_extract_first_frame [1000, -500, 1000, -8000, 1000, -500]
    7000 (by decide)
  have he : extractLoop [1000, -500, 1000, -8000, 1000, -500] 7000 =
      [1000, -500, 1000, -8000] := by rfl
  rw [he] at h
  exact h

/-- C9: whenever normalization succeeds on the raw input, the frame
extractor returns the (non-empty, even-length) pair-loop output, so its
fallback branch returning the whole normalized burst is never taken. -/
theorem c9_extract_fallback_unreachable (s b : List Int) (gap : Int)
    (h : normalize_burst_us s = .ok b) :
    extract_first_frame_us s gap = .ok (extractLoop b gap) ∧
      extractLoop b gap ≠ [] ∧ (extractLoop b gap).length % 2 = 0 := by
  obtain ⟨hne, hev, hpn⟩ := normalize_sound h
  obtain ⟨a, rest⟩ := List.exists_cons_of_ne_nil hne
  obtain ⟨l, hl⟩ := rest
  have hshape : ∃ c t, b = a :: c :: t := by
    match l, hl with
    | [], hl => rw [hl] at hev; simp at hev
    | c :: t, hl => exact ⟨c, t, hl⟩
  obtain ⟨c, t, rfl⟩ := hshape
  refine ⟨?_, extractLoop_ne_nil a c t gap, extractLoop_length_even _ _⟩
  unfold extract_first_frame_us
  rw [h]
  dsimp only
  rw [dropLastIfOdd_of_even (extractLoop_length_even _ _)]
  have : (extractLoop (a :: c :: t) gap).isEmpty = false := by
    simpa [List.isEmpty_iff] using extractLoop_ne_nil a c t gap
  simp [this]

/-- C9 witness: the theorem applied to the raw input `[1000, -500, 0]`,
whose normalization is `[1000, -500]`. -/
theorem c9_witness :
    extract_first_frame_us [1000, -500, 0] 7000 = .ok [1000, -500] ∧
      ([1000, -500] : List Int) ≠ [] ∧
      ([1000, -500] : List Int).length % 2 = 0 := by
  have h := c9_extract_fallback_unreachable [1000, -500, 0] [1000, -500]
    7000 (by rfl)
  have he : extractLoop [1000, -500] 7000 = [1000, -500] := by rfl
  rw [he] at h
  exact h

/-- Model of `pigpio.pulse(gpio_on, gpio_off, delay)`: bitmasks of pins
to set high / low, and a duration in µs. -/
structure Pulse where
  gpioOn : Nat
  gpioOff : Nat
  delay : Nat
deriving Repr, DecidableEq

/-- `pigpio.pulse(1 << tx_gpio, 0, t)`: carrier-on (high) chunk. -/
def pulseHigh (tx t : Nat) : Pulse := ⟨2 ^ tx, 0, t⟩

/-- `pigpio.pulse(0, 1 << tx_gpio, t)`: output-low chunk. -/
def pulseLow (tx t : Nat) : Pulse := ⟨0, 2 ^ tx, t⟩

/-- Model of the `while remaining > 0` body of `mark(us)` in
`build_pulses_for_burst` (ir_server.py lines 170-178).  Python
`remaining` may go negative on the final subtraction and the loop then
exits; `Nat` truncated subtraction reaches 0 with the same emitted
pulses.  Each iteration shrinks `remaining` by `t_on + t_off ≥ 1`
whenever `on_us ≥ 1` (always true at the call site), so the initial
`remaining` bounds the iteration count: the first `Nat` argument is
that bound, making the recursion structural without changing the
computed list. -/
def markLoopF (tx onUs offUs period : Nat) : Nat → Nat → List Pulse
  | _, 0 => []
  | 0, _ + 1 => []
  | fuel + 1, r + 1 =>
      let remaining := r + 1
      let tOn := if period ≤ remaining then onUs else min onUs remaining
      let tOff := if period ≤ remaining then offUs else remaining - tOn
      (pulseHigh tx tOn :: (if 0 < tOff then [pulseLow tx tOff] else [])) ++
        markLoopF tx onUs offUs period fuel (remaining - (tOn + tOff))

/-- `mark(us)` with `remaining = max(1, int(us))` already applied by the
caller: run the chunking loop on `remaining`. -/
def markLoop (tx onUs offUs period remaining : Nat) : List Pulse :=
  markLoopF tx onUs offUs period remaining remaining

/-- Model of the pairing loop of `build_pulses_for_burst`
(ir_server.py lines 184-194): `on_dur <= 0` skips without consuming the
following entry; a missing `off_dur` breaks; `off_dur != 0` emits a
single low pulse `space(abs(off_dur))` with `max(1, ...)` applied
inside `space`.  `mark` is entered with `remaining = max(1, int(us))`. -/
def burstLoop (tx onUs offUs period : Nat) : List Int → List Pulse
  | [] => []
  | [d] =>
      if d ≤ 0 then [] else markLoop tx onUs offUs period (max 1 d).toNat
  | d :: off :: rest =>
      if d ≤ 0 then burstLoop tx onUs offUs period (off :: rest)
      else
        markLoop tx onUs offUs period (max 1 d).toNat ++
          (if off ≠ 0 then [pulseLow tx (max 1 off.natAbs)] else []) ++
          burstLoop tx onUs offUs period rest

/-- `period = max(2, int(round(1_000_000 / (carrier_khz * 1000.0))))`
(ir_server.py line 166).  Python float arithmetic is modelled with
exact rationals; `round` on ℚ rounds half up where python rounds half
to even — the two agree away from exact .5 boundaries. -/
def periodOf (carrier_khz : ℚ) : Nat :=
  max 2 (round (1000000 / (carrier_khz * 1000))).toNat

/-- `on_us = max(1, int(round(period * (duty_pct / 100.0))))`
(ir_server.py line 167). -/
def onUsOf (carrier_khz duty_pct : ℚ) : Nat :=
  max 1 (round ((periodOf carrier_khz : ℚ) * (duty_pct / 100))).toNat

/-- `off_us = max(1, period - on_us)` (ir_server.py line 168); `Nat`
subtraction truncates exactly like `max(1, ...)` absorbs a negative
python difference. -/
def offUsOf (carrier_khz duty_pct : ℚ) : Nat :=
  max 1 (periodOf carrier_khz - onUsOf carrier_khz duty_pct)

/-- Model of `build_pulses_for_burst` (ir_server.py lines 159-195).
The `get_pi()` connectivity check has no effect on the returned list
and is omitted. -/
def build_pulses_for_burst (tx : Nat) (durations_us : List Int)
    (carrier_khz duty_pct : ℚ) : List Pulse :=
  burstLoop tx (onUsOf carrier_khz duty_pct) (offUsOf carrier_khz duty_pct)
    (periodOf carrier_khz) durations_us

/-- Spec-side description of one subdivided mark segment (from the spec
words): full carrier-period chunks alternating high for `onUs` and low
for `offUs`, and — only when the period does not divide the mark — one
final short chunk whose parts sum to the remainder. -/
def markChunksSpec (tx onUs offUs period m : Nat) : List Pulse :=
  (List.replicate (m / period) [pulseHigh tx onUs, pulseLow tx offUs]).flatten ++
    (if m % period = 0 then []
     else if m % period ≤ onUs then [pulseHigh tx (m % period)]
     else [pulseHigh tx onUs, pulseLow tx (m % period - onUs)])

/-- Spec-side description of the whole pulse train (from the spec
words): each mark subdivided into carrier chunks, each space a single
low pulse equal to its magnitude. -/
def pulsesSpec (tx onUs offUs period : Nat) : List Int → List Pulse
  | m :: s :: rest =>
      markChunksSpec tx onUs offUs period m.toNat ++
        pulseLow tx s.natAbs :: pulsesSpec tx onUs offUs period rest
  | _ => []

theorem markChunksSpec_zero (tx onUs offUs period : Nat) :
    markChunksSpec tx onUs offUs period 0 = [] := by
  simp [markChunksSpec]

theorem markChunksSpec_add_period (tx onUs offUs period : Nat)
    (h : 0 < period) (m : Nat) :
    markChunksSpec tx onUs offUs period (m + period) =
      [pulseHigh tx onUs, pulseLow tx offUs] ++
        markChunksSpec tx onUs offUs period m := by
  unfold markChunksSpec
  rw [Nat.add_div_right _ h, Nat.add_mod_right, List.replicate_succ,
    List.flatten_cons]
  simp [List.append_assoc]

theorem markLoopF_eq_chunks (tx onUs offUs period : Nat) (hOn : 0 < onUs)
    (hOff : 0 < offUs) (hsum : onUs + offUs = period) :
    ∀ f r, r ≤ f →
      markLoopF tx onUs offUs period f r =
        markChunksSpec tx onUs offUs period r := by
  intro f
  induction f with
  | zero =>
      intro r hr
      obtain rfl : r = 0 := by omega
      simp [markLoopF, markChunksSpec_zero]
  | succ f ih =>
      intro r hr
      match r with
      | 0 => simp [markLoopF, markChunksSpec_zero]
      | r + 1 =>
          rw [markLoopF]
          by_cases hp : period ≤ r + 1
          · simp only [if_pos hp, hOff, if_pos]
            have hstep : r + 1 - (onUs + offUs) = r + 1 - period := by
              rw [hsum]
            rw [hstep, ih _ (by omega)]
            have hm : r + 1 = (r + 1 - period) + period := by omega
            conv_rhs => rw [hm]
            rw [markChunksSpec_add_period _ _ _ _ (by omega) _]
          · simp only [if_neg hp]
            have hr1 : r + 1 < period := by omega
            have hdiv : (r + 1) / period = 0 := Nat.div_eq_of_lt hr1
            have hmod : (r + 1) % period = r + 1 := Nat.mod_eq_of_lt hr1
            by_cases hle : r + 1 ≤ onUs
            · have hmin : min onUs (r + 1) = r + 1 := by omega
              rw [hmin]
              have htOff : r + 1 - (r + 1) = 0 := by omega
              rw [htOff]
              simp only [lt_irrefl, if_false]
              have harg : r + 1 - (r + 1 + 0) = 0 := by omega
              rw [harg]
              rw [show markLoopF tx onUs offUs period f 0 = [] from by
                cases f <;> rfl]
              unfold markChunksSpec
              rw [hdiv, hmod]
              rw [if_neg (by omega), if_pos hle]
              simp
            · have hmin : min onUs (r + 1) = onUs := by omega
              rw [hmin]
              have htOff : 0 < r + 1 - onUs := by omega
              rw [if_pos htOff]
              have harg : r + 1 - (onUs + (r + 1 - onUs)) = 0 := by omega
              rw [harg]
              rw [show markLoopF tx onUs offUs period f 0 = [] from by
                cases f <;> rfl]
              unfold markChunksSpec
              rw [hdiv, hmod]
              rw [if_neg (by omega), if_neg (by omega)]
              simp

theorem markLoop_eq_chunks (tx onUs offUs period : Nat) (hOn : 0 < onUs)
    (hOff : 0 < offUs) (hsum : onUs + offUs = period) (m : Nat) :
    markLoop tx onUs offUs period m = markChunksSpec tx onUs offUs period m :=
  markLoopF_eq_chunks tx onUs offUs period hOn hOff hsum m m le_rfl

theorem markLoopF_delay_pos (tx onUs offUs period : Nat) (hOn : 0 < onUs) :
    ∀ f r, ∀ p ∈ markLoopF tx onUs offUs period f r, 1 ≤ p.delay := by
  intro f
  induction f with
  | zero =>
      intro r p hp
      match r with
      | 0 => simp [markLoopF] at hp
      | r + 1 => simp [markLoopF] at hp
  | succ f ih =>
      intro r p hp
      match r with
      | 0 => simp [markLoopF] at hp
      | r + 1 =>
          rw [markLoopF] at hp
          by_cases hper : period ≤ r + 1
          · simp only [if_pos hper] at hp
            rcases List.mem_append.mp hp with hp | hp
            · rcases List.mem_cons.mp hp with rfl | hp
              · simp only [pulseHigh]
                omega
              · split at hp
                · rename_i hpos
                  rw [List.mem_singleton] at hp
                  subst hp
                  simpa [pulseLow] using hpos
                · simp at hp
            · exact ih _ p hp
          · simp only [if_neg hper] at hp
            rcases List.mem_append.mp hp with hp | hp
            · rcases List.mem_cons.mp hp with rfl | hp
              · simp only [pulseHigh]
                omega
              · split at hp
                · rename_i hpos
                  rw [List.mem_singleton] at hp
                  subst hp
                  simp only [pulseLow]
                  omega
                · simp at hp
            · exact ih _ p hp

theorem delaySum_flatten_replicate (q : Nat) (l : List Pulse) :
    ((List.replicate q l).flatten.map Pulse.delay).sum =
      q * (l.map Pulse.delay).sum := by
  induction q with
  | zero => simp
  | succ q ih =>
      rw [List.replicate_succ, List.flatten_cons, List.map_append,
        List.sum_append, ih]
      ring

theorem markChunksSpec_delay_sum (tx onUs offUs period : Nat)
    (hsum : onUs + offUs = period) (m : Nat) :
    ((markChunksSpec tx onUs offUs period m).map Pulse.delay).sum = m := by
  unfold markChunksSpec
  have hl : (([pulseHigh tx onUs, pulseLow tx offUs] : List Pulse).map
      Pulse.delay).sum = period := by
    simp [pulseHigh, pulseLow]
    omega
  rw [List.map_append, List.sum_append, delaySum_flatten_replicate, hl]
  have key : m / period * period + m % period = m := by
    rw [Nat.mul_comm]
    exact Nat.div_add_mod m period
  by_cases h0 : m % period = 0
  · rw [if_pos h0]
    simp
    omega
  · rw [if_neg h0]
    by_cases hle : m % period ≤ onUs
    · rw [if_pos hle]
      simp [pulseHigh]
      omega
    · rw [if_neg hle]
      simp [pulseHigh, pulseLow]
      omega

theorem burstLoop_eq_spec (tx onUs offUs period : Nat) (hOn : 0 < onUs)
    (hOff : 0 < offUs) (hsum : onUs + offUs = period) (b : List Int)
    (hpn : PosNeg b) (hev : b.length % 2 = 0) :
    burstLoop tx onUs offUs period b = pulsesSpec tx onUs offUs period b := by
  induction b using resign.induct with
  | case1 m s rest ih =>
      rw [posneg_cons2] at hpn
      obtain ⟨hm, hs, hrest⟩ := hpn
      rw [burstLoop, pulsesSpec]
      rw [if_neg (by omega)]
      unfold markLoop
      rw [markLoopF_eq_chunks tx onUs offUs period hOn hOff hsum _ _ le_rfl]
      have h1 : (max 1 m).toNat = m.toNat := by
        rw [max_eq_right (by omega : (1 : Int) ≤ m)]
      have h2 : max 1 s.natAbs = s.natAbs := by
        have hpos : 0 < s.natAbs := Int.natAbs_pos.mpr (by omega)
        omega
      rw [h1, h2, if_pos (by omega : s ≠ 0)]
      rw [ih hrest (by simp at hev; omega)]
      simp [List.append_assoc]
  | case2 a => simp at hev
  | case3 => rfl

theorem burstLoop_delay_pos (tx onUs offUs period : Nat) (hOn : 0 < onUs)
    (b : List Int) (hpn : PosNeg b) :
    ∀ p ∈ burstLoop tx onUs offUs period b, 1 ≤ p.delay := by
  induction b using resign.induct with
  | case1 m s rest ih =>
      rw [posneg_cons2] at hpn
      obtain ⟨hm, hs, hrest⟩ := hpn
      intro p hp
      rw [burstLoop, if_neg (by omega)] at hp
      rcases List.mem_append.mp hp with hp | hp
      · rcases List.mem_append.mp hp with hp | hp
        · exact markLoopF_delay_pos tx onUs offUs period hOn _ _ p hp
        · rw [if_pos (by omega : s ≠ 0), List.mem_singleton] at hp
          subst hp
          simp only [pulseLow]
          have hpos : 0 < s.natAbs := Int.natAbs_pos.mpr (by omega)
          omega
      · exact ih hrest p hp
  | case2 a =>
      intro p hp
      rw [burstLoop] at hp
      split at hp
      · simp at hp
      · exact markLoopF_delay_pos tx onUs offUs period hOn _ _ p hp
  | case3 =>
      intro p hp
      simp [burstLoop] at hp

/-- C3 (amended): for every normalized Burst and every carrier/duty pair
for which the rounded high and low chunk parts sum to one carrier
period (true in particular for the default 33% duty), the builder emits
per mark the full carrier-period high/low chunks plus — exactly when
the period does not divide the mark — one final short chunk whose parts
sum to the remainder; each space segment becomes a single low pulse
equal to its magnitude; every emitted pulse lasts at least 1 µs; and
the chunks of each mark always cover exactly the mark duration. -/
theorem c3_build_pulses_spec (tx : Nat) (b : List Int) (carrier duty : ℚ)
    (hb : IsNormalized b)
    (hsum : onUsOf carrier duty + offUsOf carrier duty = periodOf carrier) :
    build_pulses_for_burst tx b carrier duty =
        pulsesSpec tx (onUsOf carrier duty) (offUsOf carrier duty)
          (periodOf carrier) b ∧
      (∀ p ∈ build_pulses_for_burst tx b carrier duty, 1 ≤ p.delay) ∧
      (∀ m : Nat,
        ((markChunksSpec tx (onUsOf carrier duty) (offUsOf carrier duty)
            (periodOf carrier) m).map Pulse.delay).sum = m) ∧
      (∀ m : Nat, m % periodOf carrier = 0 →
        markChunksSpec tx (onUsOf carrier duty) (offUsOf carrier duty)
            (periodOf carrier) m =
          (List.replicate (m / periodOf carrier)
            [pulseHigh tx (onUsOf carrier duty),
              pulseLow tx (offUsOf carrier duty)]).flatten) ∧
      (∀ m : Nat, m % periodOf carrier ≠ 0 →
        ∃ tl,
          markChunksSpec tx (onUsOf carrier duty) (offUsOf carrier duty)
              (periodOf carrier) m =
            (List.replicate (m / periodOf carrier)
              [pulseHigh tx (onUsOf carrier duty),
                pulseLow tx (offUsOf carrier duty)]).flatten ++ tl ∧
          tl ≠ [] ∧ (tl.map Pulse.delay).sum = m % periodOf carrier) := by
  obtain ⟨hne, hev, hpn⟩ := hb
  have hOn : 0 < onUsOf carrier duty := by
    unfold onUsOf
    omega
  have hOff : 0 < offUsOf carrier duty := by
    unfold offUsOf
    omega
  refine ⟨burstLoop_eq_spec _ _ _ _ hOn hOff hsum b hpn hev,
    burstLoop_delay_pos _ _ _ _ hOn b hpn, ?_, ?_, ?_⟩
  · intro m
    exact markChunksSpec_delay_sum _ _ _ _ hsum m
  · intro m h0
    unfold markChunksSpec
    rw [if_pos h0]
    simp
  · intro m h0
    refine ⟨(if m % periodOf carrier ≤ onUsOf carrier duty
        then [pulseHigh tx (m % periodOf carrier)]
        else [pulseHigh tx (onUsOf carrier duty),
          pulseLow tx (m % periodOf carrier - onUsOf carrier duty)]),
      ?_, ?_, ?_⟩
    · unfold markChunksSpec
      rw [if_neg h0]
    · split <;> simp
    · split
      · simp [pulseHigh]
      · rename_i hle
        simp [pulseHigh, pulseLow]
        omega

theorem periodOf_38 : periodOf 38 = 26 := by
  unfold periodOf
  norm_num [round_eq]
  decide

theorem onUsOf_38_33 : onUsOf 38 33 = 9 := by
  unfold onUsOf
  rw [periodOf_38]
  norm_num [round_eq]
  decide

theorem offUsOf_38_33 : offUsOf 38 33 = 17 := by
  unfold offUsOf
  rw [periodOf_38, onUsOf_38_33]
  decide

theorem periodOf_500 : periodOf 500 = 2 := by
  unfold periodOf
  norm_num [round_eq]

theorem onUsOf_500_100 : onUsOf 500 100 = 2 := by
  unfold onUsOf
  rw [periodOf_500]
  norm_num [round_eq]
  decide

theorem offUsOf_500_100 : offUsOf 500 100 = 1 := by
  unfold offUsOf
  rw [periodOf_500, onUsOf_500_100]
  decide

/-- C3 (counterexample to the claim as stated, which quantifies over
every duty cycle): at duty 100% on a 500 kHz carrier (period 2 µs, high
part 2 µs, low part forced up to 1 µs) the pulses built for the
normalized Burst `[2, -5]` last 2+1+5 = 8 µs in total, not the
2+5 = 7 µs that exact per-mark coverage plus single space pulses would
give. -/
theorem c3_counterexample :
    IsNormalized [2, -5] ∧
      ((build_pulses_for_burst 18 [2, -5] 500 100).map Pulse.delay).sum ≠
        2 + 5 := by
  constructor
  · decide
  · unfold build_pulses_for_burst
    rw [periodOf_500, onUsOf_500_100, offUsOf_500_100]
    decide

/-- C3 witness: the amended theorem at carrier 38 kHz, duty 33%
(period 26 µs, chunk parts 9 + 17 µs) on the Burst `[1000, -500]`. -/
theorem c3_witness :
    build_pulses_for_burst 18 [1000, -500] 38 33 =
        pulsesSpec 18 9 17 26 [1000, -500] ∧
      ((markChunksSpec 18 9 17 26 1000).map Pulse.delay).sum = 1000 := by
  have h := c3_build_pulses_spec 18 [1000, -500] 38 33 (by decide)
    (by rw [onUsOf_38_33, offUsOf_38_33, periodOf_38])
  rw [onUsOf_38_33, offUsOf_38_33, periodOf_38] at h
  exact ⟨h.1, h.2.2.1 1000⟩

/-- Registry state of the hold scheduler: the key set of `_hold_threads`
(ir_server.py line 303) and the `_hold_stop` flag dictionary (line
304), as a list of ids and an association list of flags. -/
structure HoldState where
  threads : List String
  stopFlags : List (String × Bool)
deriving Repr, DecidableEq

/-- Dictionary assignment `d[k] = v` on an association list. -/
def flagSet : List (String × Bool) → String → Bool → List (String × Bool)
  | [], hid, v => [(hid, v)]
  | (k, b) :: rest, hid, v =>
      if k = hid then (k, v) :: rest else (k, b) :: flagSet rest hid v

/-- Model of `hold_start_from_burst` (ir_server.py lines 316-322): raise
when the id is already registered; otherwise set its stop flag to False
and register the worker thread.  The burst and interval arguments only
parameterize the spawned worker and do not affect the registry. -/
def hold_start_from_burst (st : HoldState) (hold_id : String)
    (_burst_us : List Int) (_interval_ms : Int) : Except String HoldState :=
  if hold_id ∈ st.threads then .error "hold_id already running"
  else .ok ⟨st.threads ++ [hold_id], flagSet st.stopFlags hold_id false⟩

/-- Model of `hold_stop` (ir_server.py lines 324-328): when the id is
registered it only sets the stop flag and reports `True`; the id stays
registered until the worker observes the flag.  Otherwise `False`. -/
def hold_stop (st : HoldState) (hold_id : String) : Bool × HoldState :=
  if hold_id ∈ st.threads then
    (true, ⟨st.threads, flagSet st.stopFlags hold_id true⟩)
  else (false, st)

/-- Model of the `finally` block of `_hold_worker` (ir_server.py lines
312-314), which runs once the worker observes its stop flag and exits:
`pop` the id from both dictionaries. -/
def hold_worker_finish (st : HoldState) (hold_id : String) : HoldState :=
  ⟨st.threads.filter (fun t => t != hold_id),
    st.stopFlags.filter (fun p => p.1 != hold_id)⟩

/-- C6 (counterexample to the claim as stated): start a hold `H` from
the empty registry, signal `hold_stop H` — which succeeds — and
immediately start `H` again: the restart fails, because `hold_stop`
only sets the stop flag and the id stays registered until the worker
thread exits on its own. -/
theorem c6_counterexample :
    hold_start_from_burst ⟨[], []⟩ "H" [1000, -500] 110 =
        .ok ⟨["H"], [("H", false)]⟩ ∧
      (hold_stop ⟨["H"], [("H", false)]⟩ "H").1 = true ∧
      isErr (hold_start_from_burst
        (hold_stop ⟨["H"], [("H", false)]⟩ "H").2 "H" [1000, -500] 110) =
        true := by
  refine ⟨rfl, rfl, rfl⟩

/-- C6 (amended): starting a hold whose id is registered fails and
mutates nothing, so the running hold is untouched; starting an
unregistered id succeeds; and after `hold_stop` plus the stopped
worker's final cleanup — which deregisters the id — the same id can be
started again. -/
theorem c6_hold_lifecycle (st : HoldState) (hold_id : String)
    (burst : List Int) (iv : Int) :
    (hold_id ∈ st.threads →
      hold_start_from_burst st hold_id burst iv =
        .error "hold_id already running") ∧
    (hold_id ∉ st.threads →
      hold_start_from_burst st hold_id burst iv =
        .ok ⟨st.threads ++ [hold_id], flagSet st.stopFlags hold_id false⟩) ∧
    isErr (hold_start_from_burst
      (hold_worker_finish (hold_stop st hold_id).2 hold_id)
      hold_id burst iv) = false := by
  refine ⟨?_, ?_, ?_⟩
  · intro h
    unfold hold_start_from_burst
    rw [if_pos h]
  · intro h
    unfold hold_start_from_burst
    rw [if_neg h]
  · have hnotin :
        hold_id ∉ (hold_worker_finish (hold_stop st hold_id).2 hold_id).threads := by
      unfold hold_worker_finish
      intro hmem
      have hf := List.mem_filter.mp hmem
      simp at hf
    unfold hold_start_from_burst
    rw [if_neg hnotin]
    rfl

/-- C6 witness: the amended theorem at concrete registries — a running
`H` refuses a second start, a fresh `G` starts, and `H` restarts after
stop plus worker cleanup. -/
theorem c6_witness :
    hold_start_from_burst ⟨["H"], [("H", false)]⟩ "H" [1000, -500] 110 =
        .error "hold_id already running" ∧
      hold_start_from_burst ⟨[], []⟩ "G" [1000, -500] 110 =
        .ok ⟨["G"], [("G", false)]⟩ ∧
      isErr (hold_start_from_burst
        (hold_worker_finish (hold_stop ⟨["H"], [("H", false)]⟩ "H").2 "H")
        "H" [1000, -500] 110) = false := by
  refine ⟨?_, ?_, ?_⟩
  · exact (c6_hold_lifecycle ⟨["H"], [("H", false)]⟩ "H" [1000, -500] 110).1
      (by decide)
  · exact (c6_hold_lifecycle ⟨[], []⟩ "G" [1000, -500] 110).2.1 (by decide)
  · exact (c6_hold_lifecycle ⟨["H"], [("H", false)]⟩ "H" [1000, -500] 110).2.2

/-- The JSON code database `_load_codes()`/`_save_codes()` operate on:
remote name ↦ key name ↦ stored burst, as nested association lists. -/
abbrev Db := List (String × List (String × List Int))

/-- Inner dictionary assignment `m[key] = v`. -/
def innerSet : List (String × List Int) → String → List Int →
    List (String × List Int)
  | [], key, v => [(key, v)]
  | (k, w) :: rest, key, v =>
      if k = key then (k, v) :: rest else (k, w) :: innerSet rest key v

/-- `db.setdefault(remote, {})[key] = v` (ir_server.py line 298). -/
def dbSet : Db → String → String → List Int → Db
  | [], remote, key, v => [(remote, [(key, v)])]
  | (r, m) :: rest, remote, key, v =>
      if r = remote then (r, innerSet m key v) :: rest
      else (r, m) :: dbSet rest remote key v

/-- `if raw_burst and raw_burst[0] == 0: raw_burst = raw_burst[1:]`
(ir_server.py lines 285-286). -/
def stripLeadingZero : List Int → List Int
  | [] => []
  | a :: rest => if a = 0 then rest else a :: rest

/-- Model of `learn_stop_and_save` (ir_server.py lines 266-300).  The
global capture state is passed explicitly: `active` is `_learn_active`
and `edges` the `_learn_edges` inter-edge deltas at the time of the
call; the pigpio callback cancellation does not affect the data.  On
success the updated database and the returned burst are produced. -/
def learn_stop_and_save (active : Bool) (edges : List Int) (db : Db)
    (remote key : String) : Except String (Db × List Int) :=
  if active = false then .error "learn not active"
  else
    let raw_burst := stripLeadingZero edges
    match normalize_burst_us raw_burst with
    | .error e => .error e
    | .ok normalized =>
        match extract_first_frame_us normalized 7000 with
        | .error e => .error e
        | .ok first_frame =>
            let burst := first_frame.map (fun x => |x|)
            .ok (dbSet db remote key (burst.map (fun x => |x|)), burst)

theorem stripLeadingZero_length_le (l : List Int) :
    (stripLeadingZero l).length ≤ l.length := by
  cases l with
  | nil => simp [stripLeadingZero]
  | cons a rest =>
      rw [show stripLeadingZero (a :: rest) =
        (if a = 0 then rest else a :: rest) from rfl]
      split
      · simp
      · simp

/-- C7 (counterexample to the claim as stated): failure of the learn
stop is not characterized by any minimum raw edge count — the capture
`[5, 0, 0]` has three edges yet fails, while `[5, 7]` has only two and
succeeds. -/
theorem c7_counterexample :
    ¬ ∃ M : Nat, ∀ edges : List Int,
      isErr (learn_stop_and_save true edges [] "r" "k") = true ↔
        edges.length < M := by
  rintro ⟨M, h⟩
  have h1 := (h [5, 0, 0]).mp (by rfl)
  have h2 : ¬ (([5, 7] : List Int).length < M) := by
    intro hlt
    have hfail := (h [5, 7]).mpr hlt
    rw [show isErr (learn_stop_and_save true [5, 7] [] "r" "k") = false
      from rfl] at hfail
    exact Bool.false_ne_true hfail
  simp only [List.length_cons, List.length_nil] at h1 h2
  omega

/-- C7 (amended): with a capture active, the learn-stop operation fails
exactly when, after dropping a leading zero delta, fewer than two
nonzero edge deltas remain — hence in particular whenever fewer than
two edges were captured at all; on every other capture it persists the
learned code under the given remote and key. -/
theorem c7_learn_stop_failure (edges : List Int) (db : Db)
    (remote key : String) :
    (isErr (learn_stop_and_save true edges db remote key) = true ↔
      ((stripLeadingZero edges).filter (fun x => x != 0)).length ≤ 1) ∧
    (edges.length < 2 →
      isErr (learn_stop_and_save true edges db remote key) = true) ∧
    (∀ db2 burst,
      learn_stop_and_save true edges db remote key = .ok (db2, burst) →
      db2 = dbSet db remote key (burst.map (fun x => |x|))) := by
  have hiff : isErr (learn_stop_and_save true edges db remote key) = true ↔
      ((stripLeadingZero edges).filter (fun x => x != 0)).length ≤ 1 := by
    rw [← normalize_isErr_iff]
    cases hn : normalize_burst_us (stripLeadingZero edges) with
    | error e =>
        unfold learn_stop_and_save
        dsimp only
        rw [hn]
        simp [isErr]
    | ok b =>
        have hfix := normalize_fixed (normalize_sound hn)
        unfold learn_stop_and_save
        dsimp only
        rw [hn]
        dsimp only
        unfold extract_first_frame_us
        rw [hfix]
        simp [isErr]
  refine ⟨hiff, ?_, ?_⟩
  · intro hlen
    apply hiff.mpr
    have h1 := stripLeadingZero_length_le edges
    have h2 := List.length_filter_le (fun x => x != 0) (stripLeadingZero edges)
    omega
  · intro db2 burst hok
    unfold learn_stop_and_save at hok
    rw [if_neg (by simp)] at hok
    dsimp only at hok
    cases hn : normalize_burst_us (stripLeadingZero edges) with
    | error e => rw [hn] at hok; simp at hok
    | ok b =>
        rw [hn] at hok
        dsimp only at hok
        cases hx : extract_first_frame_us b 7000 with
        | error e => rw [hx] at hok; simp at hok
        | ok ff =>
            rw [hx] at hok
            dsimp only at hok
            rw [Except.ok.injEq, Prod.mk.injEq] at hok
            obtain ⟨hdb2, hburst⟩ := hok
            rw [← hdb2, ← hburst]

/-- C7 witness: the amended theorem applied to two concrete captures —
`[5]` (one edge, fails) and `[5, 7]` (two good edges, persisted under
remote `r`, key `k`). -/
theorem c7_witness :
    isErr (learn_stop_and_save true [5] [] "r" "k") = true ∧
      ([("r", [("k", [5, 7])])] : Db) =
        dbSet [] "r" "k" (([5, 7] : List Int).map (fun x => |x|)) := by
  refine ⟨?_, ?_⟩
  · exact (c7_learn_stop_failure [5] [] "r" "k").2.1 (by decide)
  · exact (c7_learn_stop_failure [5, 7] [] "r" "k").2.2
      [("r", [("k", [5, 7])])] [5, 7] (by rfl)

/-- A well-formed stored code: even length, all entries strictly
positive. -/
def GoodCode (v : List Int) : Prop := v.length % 2 = 0 ∧ ∀ x ∈ v, 0 < x

/-- The on-disk database invariant: every learned entry is an unsigned,
even-length pair sequence. -/
def DbOk (db : Db) : Prop := ∀ e ∈ db, ∀ kv ∈ e.2, GoodCode kv.2

theorem innerSet_good (key : String) (v : List Int) (hv : GoodCode v) :
    ∀ m : List (String × List Int), (∀ kv ∈ m, GoodCode kv.2) →
      ∀ kv ∈ innerSet m key v, GoodCode kv.2 := by
  intro m
  induction m with
  | nil =>
      intro _ kv hkv
      rw [show innerSet [] key v = [(key, v)] from rfl,
        List.mem_singleton] at hkv
      rw [hkv]
      exact hv
  | cons p rest ih =>
      obtain ⟨k, w⟩ := p
      intro hm kv hkv
      rw [show innerSet ((k, w) :: rest) key v =
        (if k = key then (k, v) :: rest
         else (k, w) :: innerSet rest key v) from rfl] at hkv
      split at hkv
      · rcases List.mem_cons.mp hkv with rfl | hkv
        · exact hv
        · exact hm kv (List.mem_cons_of_mem _ hkv)
      · rcases List.mem_cons.mp hkv with rfl | hkv
        · exact hm (k, w) (List.mem_cons_self _ _)
        · exact ih (fun q hq => hm q (List.mem_cons_of_mem _ hq)) kv hkv

theorem dbSet_good (remote key : String) (v : List Int) (hv : GoodCode v) :
    ∀ db : Db, DbOk db → DbOk (dbSet db remote key v) := by
  intro db
  induction db with
  | nil =>
      intro _ e he kv hkv
      rw [show dbSet [] remote key v = [(remote, [(key, v)])] from rfl,
        List.mem_singleton] at he
      rw [he] at hkv
      rw [List.mem_singleton.mp hkv]
      exact hv
  | cons p rest ih =>
      obtain ⟨r, m⟩ := p
      intro hdb e he kv hkv
      rw [show dbSet ((r, m) :: rest) remote key v =
        (if r = remote then (r, innerSet m key v) :: rest
         else (r, m) :: dbSet rest remote key v) from rfl] at he
      split at he
      · rcases List.mem_cons.mp he with rfl | he
        · exact innerSet_good key v hv m
            (fun q hq => hdb (r, m) (List.mem_cons_self _ _) q hq) kv hkv
        · exact hdb e (List.mem_cons_of_mem _ he) kv hkv
      · rcases List.mem_cons.mp he with rfl | he
        · exact hdb (r, m) (List.mem_cons_self _ _) kv hkv
        · exact ih (fun q hq s hs => hdb q (List.mem_cons_of_mem _ hq) s hs)
            e he kv hkv

theorem extractLoop_subset (l : List Int) (gap : Int) :
    ∀ x ∈ extractLoop l gap, x ∈ l := by
  induction l using resign.induct with
  | case1 a b rest ih =>
      intro x hx
      rw [extractLoop] at hx
      split at hx
      · simp only [List.mem_cons, List.not_mem_nil, or_false] at hx
        rcases hx with rfl | rfl
        · exact List.mem_cons_self _ _
        · exact List.mem_cons_of_mem _ (List.mem_cons_self _ _)
      · rcases List.mem_cons.mp hx with rfl | hx
        · exact List.mem_cons_self _ _
        · rcases List.mem_cons.mp hx with rfl | hx
          · exact List.mem_cons_of_mem _ (List.mem_cons_self _ _)
          · exact List.mem_cons_of_mem _
              (List.mem_cons_of_mem _ (ih x hx))
  | case2 a =>
      intro x hx
      rw [show extractLoop [a] gap = [] from rfl] at hx
      simp at hx
  | case3 =>
      intro x hx
      rw [show extractLoop [] gap = [] from rfl] at hx
      simp at hx

theorem dropLastIfOdd_subset (l : List Int) :
    ∀ x ∈ dropLastIfOdd l, x ∈ l := by
  intro x hx
  unfold dropLastIfOdd at hx
  split at hx
  · exact (List.dropLast_sublist _).subset hx
  · exact hx

/-- C10: every code persisted by a successful learn-stop is a strictly
positive, even-length sequence — the absolute values of the first
extracted frame — and inserting it preserves the database invariant
that all learned entries are unsigned, even-length pair sequences. -/
theorem c10_learned_codes_wellformed (active : Bool) (edges : List Int)
    (db : Db) (remote key : String) (db2 : Db) (burst : List Int)
    (hok : learn_stop_and_save active edges db remote key =
      .ok (db2, burst)) :
    GoodCode (burst.map (fun x => |x|)) ∧
      db2 = dbSet db remote key (burst.map (fun x => |x|)) ∧
      (DbOk db → DbOk db2) := by
  cases active with
  | false => simp [learn_stop_and_save] at hok
  | true =>
      unfold learn_stop_and_save at hok
      rw [if_neg (by simp)] at hok
      dsimp only at hok
      cases hn : normalize_burst_us (stripLeadingZero edges) with
      | error e => rw [hn] at hok; simp at hok
      | ok b =>
          rw [hn] at hok
          dsimp only at hok
          obtain ⟨hne, hev, hpn⟩ := normalize_sound hn
          have hfix := normalize_fixed ⟨hne, hev, hpn⟩
          rw [show extract_first_frame_us b 7000 =
              .ok (if (dropLastIfOdd (extractLoop b 7000)).isEmpty then b
                else dropLastIfOdd (extractLoop b 7000)) from by
            unfold extract_first_frame_us
            rw [hfix]] at hok
          dsimp only at hok
          rw [Except.ok.injEq, Prod.mk.injEq] at hok
          obtain ⟨hdb2, hburst⟩ := hok
          set ff := if (dropLastIfOdd (extractLoop b 7000)).isEmpty then b
            else dropLastIfOdd (extractLoop b 7000) with hffdef
          have hmem : ∀ x ∈ ff, x ≠ 0 := by
            intro x hx
            rw [hffdef] at hx
            split at hx
            · exact posneg_mem_ne_zero hpn x hx
            · exact posneg_mem_ne_zero hpn x
                (extractLoop_subset b 7000 x (dropLastIfOdd_subset _ x hx))
          have hlen : ff.length % 2 = 0 := by
            rw [hffdef]
            split
            · exact hev
            · exact dropLastIfOdd_even_length _
          have hgood : GoodCode (burst.map (fun x => |x|)) := by
            constructor
            · rw [List.length_map, ← hburst, List.length_map]
              exact hlen
            · intro y hy
              rw [List.mem_map] at hy
              obtain ⟨x, hx, rfl⟩ := hy
              rw [← hburst, List.mem_map] at hx
              obtain ⟨z, hz, rfl⟩ := hx
              rw [abs_abs]
              exact abs_pos.mpr (hmem z hz)
          refine ⟨hgood, ?_, ?_⟩
          · rw [← hdb2, hburst]
          · intro hdb
            rw [← hdb2, hburst]
            exact dbSet_good remote key _ hgood db hdb

/-- C10 witness: the theorem applied to the concrete capture `[5, 7]`
saved as remote `r`, key `k` into the empty database. -/
theorem c10_witness :
    GoodCode (([5, 7] : List Int).map (fun x => |x|)) ∧
      ([("r", [("k", [5, 7])])] : Db) =
        dbSet [] "r" "k" (([5, 7] : List Int).map (fun x => |x|)) ∧
      DbOk [("r", [("k", [5, 7])])] := by
  have h := c10_learned_codes_wellformed true [5, 7] [] "r" "k"
    [("r", [("k", [5, 7])])] [5, 7] (by rfl)
  exact ⟨h.1, h.2.1, h.2.2 (fun e he => absurd he (List.not_mem_nil e))⟩

/-- Observable events of the transmission sequence: attempt `i` of step
`s`, or a forced reconnect of the pigpio handle.  Step numbering in
`send_raw_burst` (ir_server.py lines 213-224): 0 = reset
(`wave_tx_stop` + `wave_clear`), 1 = `wave_add_generic`,
2 = `wave_create`, 3 = `wave_send_once`, 4 = the `wave_tx_busy` poll
loop, 5 = `wave_delete`. -/
inductive Ev
  | att : Nat → Nat → Ev
  | reconnect : Ev
deriving Repr, DecidableEq

/-- Model of the loop body of `_retry` (ir_server.py lines 73-86) from
attempt `i` with `rem = n - i` attempts still allowed: try the attempt;
on failure, if retries remain, drop the handle (forcing a reconnect)
and continue, else propagate the failure.  `beh i` tells whether the
i-th attempt of this step succeeds. -/
def retryGo (beh : Nat → Bool) (step : Nat) : Nat → Nat → Bool × List Ev
  | i, 0 =>
      if beh i then (true, [Ev.att step i]) else (false, [Ev.att step i])
  | i, rem + 1 =>
      if beh i then (true, [Ev.att step i])
      else
        let r := retryGo beh step (i + 1) rem
        (r.1, Ev.att step i :: Ev.reconnect :: r.2)

/-- Model of `_retry(fn, n)`: attempts `0 .. n`, reconnecting between
failed attempts; called with the default `n = 1` throughout
`send_raw_burst`. -/
def retry (beh : Nat → Bool) (step n : Nat) : Bool × List Ev :=
  retryGo beh step 0 n

/-- Model of one per-chunk transmission sequence of `send_raw_burst`
(ir_server.py lines 213-224; a burst of at most 9000 pulses runs
exactly one chunk): steps 0-3 are each wrapped in `_retry`; the busy
poll (step 4) is not retried; the `wave_delete` release (step 5) runs
in the `finally` block, is retried, and its failure is swallowed by
`try/except: pass`.  Returns overall success and the event trace. -/
def sendChunkSeq (beh : Nat → Nat → Bool) : Bool × List Ev :=
  let r0 := retry (beh 0) 0 1
  if ¬ r0.1 then (false, r0.2)
  else
    let r1 := retry (beh 1) 1 1
    if ¬ r1.1 then (false, r0.2 ++ r1.2)
    else
      let r2 := retry (beh 2) 2 1
      if ¬ r2.1 then (false, r0.2 ++ r1.2 ++ r2.2)
      else
        let r3 := retry (beh 3) 3 1
        if ¬ r3.1 then
          let r5 := retry (beh 5) 5 1
          (false, r0.2 ++ r1.2 ++ r2.2 ++ r3.2 ++ r5.2)
        else
          let r5 := retry (beh 5) 5 1
          (beh 4 0, r0.2 ++ r1.2 ++ r2.2 ++ r3.2 ++ [Ev.att 4 0] ++ r5.2)

/-- Spec-side model (from the spec words of §4.4): run the whole
step sequence once, stopping at the first failing step. -/
def specRunSteps (beh : Nat → Nat → Bool) (attempt : Nat) :
    List Nat → Bool × List Ev
  | [] => (true, [])
  | s :: rest =>
      if beh s attempt then
        let r := specRunSteps beh attempt rest
        (r.1, Ev.att s attempt :: r.2)
      else (false, [Ev.att s attempt])

/-- Spec-side model (from the spec words): call reset, submit pulses,
trigger send-once, wait, release — and retry the whole sequence once
after forcing a reconnect if any step fails. -/
def specWholeRetry (beh : Nat → Nat → Bool) : Bool × List Ev :=
  let r := specRunSteps beh 0 [0, 1, 2, 3, 4, 5]
  if r.1 then r
  else
    let r2 := specRunSteps beh 1 [0, 1, 2, 3, 4, 5]
    (r2.1, r.2 ++ Ev.reconnect :: r2.2)

/-- C8 (counterexample to the claim as stated): with a behavior where
only the submit step (step 1) fails on its first attempt, the code
re-attempts just that step, so the reset step runs once — whereas
retrying the whole sequence would re-attempt every step.  The traces of
the code and of the whole-sequence-retry reading differ. -/
theorem c8_counterexample :
    sendChunkSeq (fun s i => !(s == 1 && i == 0)) ≠
        specWholeRetry (fun s i => !(s == 1 && i == 0)) ∧
      (sendChunkSeq (fun s i => !(s == 1 && i == 0))).2.count (Ev.att 0 0) =
        1 ∧
      (sendChunkSeq (fun s i => !(s == 1 && i == 0))).2.count (Ev.att 0 1) =
        0 := by
  refine ⟨by decide, by decide, by decide⟩

theorem retry_eq (beh : Nat → Bool) (step : Nat) :
    retry beh step 1 =
      if beh 0 then (true, [Ev.att step 0])
      else (beh 1, [Ev.att step 0, Ev.reconnect, Ev.att step 1]) := by
  by_cases h0 : beh 0
  · simp [retry, retryGo, h0]
  · by_cases h1 : beh 1 <;> simp [retry, retryGo, h0, h1]

theorem retry_fst (beh : Nat → Bool) (step : Nat) :
    (retry beh step 1).1 = (beh 0 || beh 1) := by
  rw [retry_eq]
  by_cases h0 : beh 0 <;> simp [h0]

/-- Number of attempts of step `s` recorded in a trace. -/
def countAtt (tr : List Ev) (s : Nat) : Nat :=
  tr.countP (fun e => match e with
    | .att s2 _ => s2 == s
    | .reconnect => false)

/-- The longest trace one chunk can produce: both attempts of each
retried step, plus the single busy poll. -/
def maxTrace : List Ev :=
  [Ev.att 0 0, Ev.reconnect, Ev.att 0 1] ++
    ([Ev.att 1 0, Ev.reconnect, Ev.att 1 1] ++
      ([Ev.att 2 0, Ev.reconnect, Ev.att 2 1] ++
        ([Ev.att 3 0, Ev.reconnect, Ev.att 3 1] ++
          ([Ev.att 4 0] ++ [Ev.att 5 0, Ev.reconnect, Ev.att 5 1]))))

theorem retry_trace_sublist (bh : Nat → Bool) (st : Nat) :
    (retry bh st 1).2.Sublist [Ev.att st 0, Ev.reconnect, Ev.att st 1] := by
  rw [retry_eq]
  by_cases h0 : bh 0
  · rw [if_pos h0]
    exact (List.nil_sublist _).cons₂ _
  · rw [if_neg h0]

theorem sendChunkSeq_trace_sublist (beh : Nat → Nat → Bool) :
    (sendChunkSeq beh).2.Sublist maxTrace := by
  have h0 := retry_trace_sublist (beh 0) 0
  have h1 := retry_trace_sublist (beh 1) 1
  have h2 := retry_trace_sublist (beh 2) 2
  have h3 := retry_trace_sublist (beh 3) 3
  have h5 := retry_trace_sublist (beh 5) 5
  unfold sendChunkSeq maxTrace
  dsimp only
  by_cases b0 : (retry (beh 0) 0 1).1
  · rw [if_neg (not_not_intro b0)]
    by_cases b1 : (retry (beh 1) 1 1).1
    · rw [if_neg (not_not_intro b1)]
      by_cases b2 : (retry (beh 2) 2 1).1
      · rw [if_neg (not_not_intro b2)]
        by_cases b3 : (retry (beh 3) 3 1).1
        · rw [if_neg (not_not_intro b3)]
          simp only [List.append_assoc]
          exact h0.append (h1.append (h2.append (h3.append
            ((List.Sublist.refl _).append h5))))
        · rw [if_pos b3]
          simp only [List.append_assoc]
          exact h0.append (h1.append (h2.append (h3.append
            (h5.trans (List.sublist_append_right _ _)))))
      · rw [if_pos b2]
        simp only [List.append_assoc]
        exact h0.append (h1.append
          (h2.trans (List.sublist_append_left _ _)))
    · rw [if_pos b1]
      simp only [List.append_assoc]
      exact h0.append (h1.trans (List.sublist_append_left _ _))
  · rw [if_pos b0]
    exact h0.trans (List.sublist_append_left _ _)

theorem countAtt_maxTrace (s : Nat) : countAtt maxTrace s ≤ 2 := by
  match s with
  | 0 => decide
  | 1 => decide
  | 2 => decide
  | 3 => decide
  | 4 => decide
  | 5 => decide
  | n + 6 =>
      have h : countAtt maxTrace (n + 6) = 0 := rfl
      omega

theorem countAtt_le_two (beh : Nat → Nat → Bool) (s : Nat) :
    countAtt (sendChunkSeq beh).2 s ≤ 2 :=
  le_trans ((sendChunkSeq_trace_sublist beh).countP_le _) (countAtt_maxTrace s)

theorem attIdx_le_one (beh : Nat → Nat → Bool) (s i : Nat)
    (h : Ev.att s i ∈ (sendChunkSeq beh).2) : i ≤ 1 := by
  have hm := (sendChunkSeq_trace_sublist beh).subset h
  simp only [maxTrace, List.mem_append, List.mem_cons, List.not_mem_nil,
    or_false, Ev.att.injEq, reduceCtorEq] at hm
  have h01 : i = 0 ∨ i = 1 := by tauto
  omega

theorem sendSuccess_iff (beh : Nat → Nat → Bool) :
    (sendChunkSeq beh).1 =
      ((beh 0 0 || beh 0 1) && (beh 1 0 || beh 1 1) && (beh 2 0 || beh 2 1)
        && (beh 3 0 || beh 3 1) && beh 4 0) := by
  unfold sendChunkSeq
  dsimp only
  by_cases b0 : (retry (beh 0) 0 1).1
  · rw [if_neg (not_not_intro b0)]
    rw [retry_fst] at b0
    by_cases b1 : (retry (beh 1) 1 1).1
    · rw [if_neg (not_not_intro b1)]
      rw [retry_fst] at b1
      by_cases b2 : (retry (beh 2) 2 1).1
      · rw [if_neg (not_not_intro b2)]
        rw [retry_fst] at b2
        by_cases b3 : (retry (beh 3) 3 1).1
        · rw [if_neg (not_not_intro b3)]
          rw [retry_fst] at b3
          simp [b0, b1, b2, b3]
        · rw [if_pos b3]
          rw [retry_fst, Bool.not_eq_true] at b3
          simp [b0, b1, b2, b3]
      · rw [if_pos b2]
        rw [retry_fst, Bool.not_eq_true] at b2
        simp [b0, b1, b2]
    · rw [if_pos b1]
      rw [retry_fst, Bool.not_eq_true] at b1
      simp [b0, b1]
  · rw [if_pos b0]
    rw [retry_fst, Bool.not_eq_true] at b0
    simp [b0]

/-- C8 (amended): `_retry` re-runs a failing step exactly once, after a
forced reconnect, and never attempts it more than twice; in
`send_raw_burst` each step is retried individually this way — not the
whole sequence — so the chunk succeeds exactly when each of reset,
submit, create and trigger succeeds within its two attempts and the
unretried busy poll does not raise (the release step's failure being
swallowed); in every possible trace each step is attempted at most
twice and no attempt index beyond the single retry occurs. -/
theorem c8_retry_per_step (beh : Nat → Nat → Bool) :
    (∀ st, retry (beh st) st 1 =
      if beh st 0 then (true, [Ev.att st 0])
      else (beh st 1, [Ev.att st 0, Ev.reconnect, Ev.att st 1])) ∧
    (∀ s, countAtt (sendChunkSeq beh).2 s ≤ 2) ∧
    ((sendChunkSeq beh).1 =
      ((beh 0 0 || beh 0 1) && (beh 1 0 || beh 1 1) && (beh 2 0 || beh 2 1)
        && (beh 3 0 || beh 3 1) && beh 4 0)) ∧
    (∀ s i, Ev.att s i ∈ (sendChunkSeq beh).2 → i ≤ 1) :=
  ⟨fun st => retry_eq (beh st) st, countAtt_le_two beh, sendSuccess_iff beh,
    attIdx_le_one beh⟩

/-- C8 witness: the amended theorem at the always-succeeding behavior —
one attempt per step, overall success, attempt indices within bounds. -/
theorem c8_witness :
    retry ((fun _ _ => true) 1) 1 1 = (true, [Ev.att 1 0]) ∧
      countAtt (sendChunkSeq (fun _ _ => true)).2 0 ≤ 2 ∧
      (sendChunkSeq (fun _ _ => true)).1 = true ∧
      (0 : Nat) ≤ 1 := by
  have h := c8_retry_per_step (fun _ _ => true)
  refine ⟨by simpa using h.1 1, h.2.1 0, by simpa using h.2.2.1,
    h.2.2.2 0 0 (by decide)⟩
